import Mathlib

/-!
Verification of the runbook-generator command-processing pipeline.

This file gives a shallow embedding of the three pipeline stages of the
repository (deduplication, sanitization, intent grouping) and proves the
specified properties about them.

Modelling conventions:
- Go `history.Entry` is the structure `Entry`; `time.Time` values and
  `time.Duration` gaps are modelled as integers in a common unit, with
  `b.Timestamp.Sub(a.Timestamp) > gap` becoming `b.timestamp - a.timestamp > gap`.
- Go strings are Lean `String`s; `strings.TrimSpace`, `strings.HasPrefix`,
  `strings.Fields` and `strings.SplitN` are implemented over the character
  list (`trimSpace`, `hasPrefixStr`, `fieldsOf`, `splitOnPred`) so that
  concrete inputs evaluate inside the kernel.
- The sanitizer's regular expressions are modelled abstractly: a `Pattern`
  carries its match test (`Regex.MatchString`) and its replacement function
  (`Regex.ReplaceAllString` applied with the pattern's template) as opaque
  functions, since the control flow of the sanitizer is independent of the
  concrete regex engine.
- Go map iteration order is unspecified; functions that range over a map
  take an explicit enumeration `order` of the map's keys as a parameter.
-/

/-- Embedding of `strings.TrimSpace`: remove leading and trailing whitespace.
Implemented over the character list so that it reduces in the kernel. -/
def trimSpace (s : String) : String :=
  ⟨((s.data.dropWhile Char.isWhitespace).reverse.dropWhile Char.isWhitespace).reverse⟩

/-- Embedding of `strings.HasPrefix`: does `s` start with `pre`? -/
def hasPrefixStr (s pre : String) : Bool :=
  pre.data.isPrefixOf s.data

/-- Splitting a character list at every character satisfying `p`; the second
argument accumulates the current piece in reverse. -/
def splitOnPred (p : Char → Bool) : List Char → List Char → List (List Char)
  | [], acc => [acc.reverse]
  | x :: xs, acc =>
    if p x then acc.reverse :: splitOnPred p xs []
    else splitOnPred p xs (x :: acc)

/-- Embedding of `history.Entry`: one command from the shell history. -/
structure Entry where
  number : Int
  timestamp : Int
  command : String
  hasTime : Bool
deriving DecidableEq

/-- Embedding of `processor.Dedup`: configuration of the deduplicator. -/
structure Dedup where
  timeGap : Int
deriving DecidableEq

/-- One row of the dynamic-programming `matrix` of `levenshteinDistance` in
patterns.go: given row `i` as the function `prev`, `levAuxRow a b prev i j`
is the value of `matrix[i+1][j]`, following the Go fill
`matrix[i][j] = min(matrix[i-1][j]+1, matrix[i][j-1]+1, matrix[i-1][j-1]+cost)`
with `cost = 0` when `a[i-1] == b[j-1]` and `1` otherwise. -/
def levAuxRow (a b : List Char) (prev : Nat → Nat) (i : Nat) : Nat → Nat
  | 0 => i + 1
  | j + 1 =>
    let cost : Nat := if a[i]? = b[j]? then 0 else 1
    min (prev (j + 1) + 1) (min (levAuxRow a b prev i j + 1) (prev j + cost))

/-- Embedding of the dynamic-programming table filled by `levenshteinDistance`
in patterns.go: `levAux a b i j` is the value of `matrix[i][j]`, the distance
between the first `i` characters of `a` and the first `j` characters of `b`,
computed row by row exactly as the Go loop does. -/
def levAux (a b : List Char) : Nat → Nat → Nat
  | 0, j => j
  | i + 1, j => levAuxRow a b (levAux a b i) i j

/-- Embedding of `levenshteinDistance` from patterns.go, including its early
returns for empty inputs. -/
def levenshteinDistance (a b : String) : Nat :=
  if a.length = 0 then b.length
  else if b.length = 0 then a.length
  else levAux a.data b.data a.length b.length

/-- Embedding of `Dedup.isExactDuplicate`: equality of trimmed command texts. -/
def Dedup.isExactDuplicate (_d : Dedup) (a b : Entry) : Bool :=
  trimSpace a.command = trimSpace b.command

/-- Embedding of `Dedup.hasSignificantGap`: true when both entries carry
timestamps and the elapsed time exceeds the configured gap. -/
def Dedup.hasSignificantGap (d : Dedup) (a b : Entry) : Bool :=
  if !a.hasTime || !b.hasTime then false
  else decide (b.timestamp - a.timestamp > d.timeGap)

/-- Embedding of `Dedup.isTypoCorrection` from patterns.go. -/
def Dedup.isTypoCorrection (_d : Dedup) (a b : String) : Bool :=
  let a := trimSpace a
  let b := trimSpace b
  let lenDiff : Int := (a.length : Int) - (b.length : Int)
  let lenDiff := if lenDiff < 0 then -lenDiff else lenDiff
  if lenDiff > 5 then false
  else
    let distance := levenshteinDistance a b
    let maxLen := if b.length > a.length then b.length else a.length
    let threshold := maxLen / 10
    let threshold := if threshold < 2 then 2 else threshold
    let threshold := if threshold > 5 then 5 else threshold
    decide (distance > 0 ∧ distance ≤ threshold)

/-- Embedding of `extractExportVar`: variable name of an `export` command. -/
def extractExportVar (cmd : String) : String :=
  let cmd := if hasPrefixStr cmd "export " then (⟨cmd.data.drop 7⟩ : String) else cmd
  let parts := splitOnPred (fun c => c == '=') cmd.data []
  match parts with
  | [] => ""
  | p0 :: _ => trimSpace ⟨p0⟩

/-- Embedding of `Dedup.shouldCollapse`: consecutive `cd` commands, or
consecutive `export` commands assigning the same variable, collapse. -/
def Dedup.shouldCollapse (_d : Dedup) (a b : String) : Bool :=
  let a := trimSpace a
  let b := trimSpace b
  if hasPrefixStr a "cd " && hasPrefixStr b "cd " then true
  else if hasPrefixStr a "export " && hasPrefixStr b "export " then
    let aVar := extractExportVar a
    let bVar := extractExportVar b
    decide (aVar ≠ "" ∧ aVar = bVar)
  else false

/-- Embedding of the loop body of `Dedup.Process`: `result` is the output
built so far, the list argument is the remaining input.  Replacing
`result[len(result)-1]` is modelled as `result.dropLast ++ [entry]`. -/
def dedupLoop (d : Dedup) (result : List Entry) : List Entry → List Entry
  | [] => result
  | entry :: rest =>
    if trimSpace entry.command = "" then dedupLoop d result rest
    else
      match result.getLast? with
      | none => dedupLoop d (result ++ [entry]) rest
      | some prev =>
        if d.isExactDuplicate prev entry then
          if d.hasSignificantGap prev entry then dedupLoop d (result ++ [entry]) rest
          else dedupLoop d result rest
        else if d.isTypoCorrection prev.command entry.command then
          dedupLoop d (result.dropLast ++ [entry]) rest
        else if d.shouldCollapse prev.command entry.command then
          dedupLoop d (result.dropLast ++ [entry]) rest
        else
          match rest with
          | nextE :: _ =>
            if d.isTypoCorrection entry.command nextE.command then dedupLoop d result rest
            else dedupLoop d (result ++ [entry]) rest
          | [] => dedupLoop d (result ++ [entry]) rest

/-- Embedding of `Dedup.Process` from patterns.go. -/
def Dedup.Process (d : Dedup) (entries : List Entry) : List Entry :=
  if entries = [] then entries
  else dedupLoop d [] entries

/-- Embedding of `processor.Pattern`.  The compiled regular expression is
modelled abstractly: `isMatch` is `Regex.MatchString` and `replace` is
`Regex.ReplaceAllString` applied with the pattern's replacement template. -/
structure Pattern where
  name : String
  isMatch : String → Bool
  replace : String → String
  fullRemove : Bool

/-- Embedding of `processor.Redaction`: what was redacted from a command. -/
structure Redaction where
  entryNumber : Int
  patternName : String
  original : String
deriving DecidableEq

/-- Embedding of `processor.Sanitizer`. -/
structure Sanitizer where
  patterns : List Pattern
  allowlist : List String
  strictMode : Bool

/-- Embedding of the pattern loop of `Sanitizer.sanitizeEntry`: iterate the
patterns in order over the current command text, accumulating redactions.
A matching full-remove pattern aborts with `none` and a single redaction,
exactly as the Go loop returns `nil, []Redaction{redaction}`. -/
def sanitizeLoop (strict : Bool) (original : String) (num : Int) :
    List Pattern → String → List Redaction → Option String × List Redaction
  | [], command, reds => (some command, reds)
  | p :: rest, command, reds =>
    if p.isMatch command = false then sanitizeLoop strict original num rest command reds
    else if p.fullRemove then
      (none, [{ entryNumber := num, patternName := p.name,
                original := if strict then original else "" }])
    else
      let newCommand := p.replace command
      if newCommand ≠ command then
        sanitizeLoop strict original num rest newCommand
          (reds ++ [{ entryNumber := num, patternName := p.name,
                      original := if strict then original else "" }])
      else sanitizeLoop strict original num rest command reds

/-- Embedding of `Sanitizer.sanitizeEntry`: `none` means the entry is dropped. -/
def Sanitizer.sanitizeEntry (s : Sanitizer) (entry : Entry) : Option Entry × List Redaction :=
  match sanitizeLoop s.strictMode entry.command entry.number s.patterns entry.command [] with
  | (none, reds) => (none, reds)
  | (some c, reds) => (some { entry with command := c }, reds)

/-- Embedding of `Sanitizer.Process`: sanitize every entry, keep the surviving
ones in order, and concatenate the per-entry redaction lists in order. -/
def Sanitizer.Process (s : Sanitizer) : List Entry → List Entry × List Redaction
  | [] => ([], [])
  | e :: rest =>
    let hd := s.sanitizeEntry e
    let tl := s.Process rest
    (match hd.1 with
     | some x => x :: tl.1
     | none => tl.1,
     hd.2 ++ tl.2)

/-- Embedding of the loop of `Sanitizer.SanitizeString` from part_002. -/
def sanitizeStringLoop : List Pattern → String → String
  | [], command => command
  | p :: rest, command =>
    if p.fullRemove && p.isMatch command then "[REDACTED - contains sensitive data]"
    else sanitizeStringLoop rest (p.replace command)

/-- Embedding of `Sanitizer.SanitizeString`. -/
def Sanitizer.SanitizeString (s : Sanitizer) (command : String) : String :=
  sanitizeStringLoop s.patterns command

/-- Embedding of `processor.Workflow` from intent.go. -/
structure Workflow where
  name : String
  patterns : List String
  description : String
deriving DecidableEq

/-- Embedding of `processor.CommandGroup` from intent.go. -/
structure CommandGroup where
  title : String
  description : String
  commands : List Entry
  intent : String
deriving DecidableEq

/-- Embedding of `processor.IntentAnalyzer` from intent.go. -/
structure IntentAnalyzer where
  workflows : List Workflow
  threshold : Int
deriving DecidableEq

/-- Embedding of `strings.Fields`: whitespace-delimited tokens of a string. -/
def fieldsOf (command : String) : List String :=
  ((splitOnPred Char.isWhitespace command.data []).map
    (fun l => (⟨l⟩ : String))).filter (fun t => t ≠ "")

/-- Embedding of `extractTool` from intent.go: first token, unwrapping
`sudo`, `time`, `nice` and `nohup` to the wrapped command. -/
def extractTool (command : String) : String :=
  match fieldsOf command with
  | [] => ""
  | p0 :: rest =>
    let tool := if p0 = "sudo" && rest.length > 0 then rest.headD "" else p0
    if (tool = "time" || tool = "nice" || tool = "nohup") && rest.length > 0 then rest.headD ""
    else tool

/-- Embedding of the fixed `families` table of `areRelatedTools` in intent.go. -/
def toolFamilies : List (List String) :=
  [["git", "gh"],
   ["docker", "docker-compose"],
   ["kubectl", "helm", "k9s"],
   ["npm", "npx", "yarn", "pnpm"],
   ["go", "gofmt", "golangci-lint"],
   ["python", "pip", "python3", "pip3"],
   ["terraform", "tf"],
   ["aws", "awscli"],
   ["gcloud", "gsutil"],
   ["az", "azure"]]

/-- Embedding of `areRelatedTools` from intent.go. -/
def areRelatedTools (a b : String) : Bool :=
  if a = b then true
  else toolFamilies.any (fun fam => fam.contains a && fam.contains b)

/-- Embedding of `IntentAnalyzer.inferIntent`: name of the first workflow one
of whose command-text prefixes starts the command. -/
def IntentAnalyzer.inferIntent (a : IntentAnalyzer) (command : String) : String :=
  match a.workflows.find? (fun w => w.patterns.any (fun pat => hasPrefixStr command pat)) with
  | some w => w.name
  | none => ""

/-- Embedding of `IntentAnalyzer.hasTimeGap` from intent.go. -/
def IntentAnalyzer.hasTimeGap (a : IntentAnalyzer) (prev curr : Entry) : Bool :=
  if !prev.hasTime || !curr.hasTime then false
  else decide (curr.timestamp - prev.timestamp > a.threshold)

/-- Count of group commands whose extracted tool is `t`; this is the value
`tools[t]` of the counting map built by `generateTitle` in intent.go. -/
def toolCount (commands : List Entry) (t : String) : Nat :=
  (commands.filter (fun c => extractTool c.command = t)).length

/-- The key set of the counting map built by `generateTitle`: each nonempty
extracted tool, once, in first-encountered order. -/
def toolKeys (commands : List Entry) : List String :=
  ((commands.map (fun c => extractTool c.command)).filter (fun t => t ≠ "")).dedup

/-- A list is a possible Go map iteration order over the `tools` map of
`generateTitle` exactly when it is a permutation of the map's key set. -/
abbrev isToolOrder (commands : List Entry) (order : List String) : Prop :=
  order.Perm (toolKeys commands)

/-- Embedding of the most-common-tool scan of `generateTitle`: the Go loop
`for tool, count := range tools` ranged in the map iteration order `order`. -/
def pickPrimary (counts : String → Nat) (order : List String) : String × Nat :=
  order.foldl (fun acc tool => if counts tool > acc.2 then (tool, counts tool) else acc) ("", 0)

/-- Embedding of `generateTitle` from intent.go, parameterized by the map
iteration order `order` used by the most-common-tool scan. -/
def generateTitle (commands : List Entry) (order : List String) : String :=
  if commands.length = 0 then "Commands"
  else
    let primaryTool := (pickPrimary (toolCount commands) order).1
    match primaryTool with
    | "git" => "Git operations"
    | "docker" | "docker-compose" => "Docker operations"
    | "kubectl" | "helm" => "Kubernetes operations"
    | "npm" | "yarn" | "pnpm" => "Node.js package operations"
    | "go" => "Go operations"
    | "python" | "pip" | "python3" => "Python operations"
    | "terraform" | "tf" => "Terraform operations"
    | "ssh" | "scp" | "rsync" => "Remote operations"
    | "curl" | "wget" => "HTTP requests"
    | "cd" | "ls" | "mkdir" | "rm" | "cp" | "mv" => "File system operations"
    | _ => if primaryTool ≠ "" then primaryTool ++ " operations" else "Shell commands"

/-- Embedding of `generateDescription` from intent.go (every branch is empty). -/
def generateDescription (commands : List Entry) : String :=
  if commands.length = 0 then ""
  else if commands.length = 1 then ""
  else ""

/-- Embedding of `IntentAnalyzer.finalizeGroup`, parameterized by the map
iteration order `ord` passed through to `generateTitle`. -/
def IntentAnalyzer.finalizeGroup (a : IntentAnalyzer) (ord : List String)
    (group : CommandGroup) : CommandGroup :=
  let title :=
    if group.intent ≠ "" then
      match a.workflows.find? (fun w => w.name = group.intent) with
      | some w => w.description
      | none => group.title
    else group.title
  let title := if title = "" then generateTitle group.commands ord else title
  { group with title := title, description := generateDescription group.commands }

/-- Embedding of the loop of `IntentAnalyzer.Analyze`: `prev` is the previous
entry, `cur` the current accumulating group.  `ordOf` supplies, per group, the
map iteration order used when the group is finalized. -/
def analyzeLoop (a : IntentAnalyzer) (ordOf : List Entry → List String) :
    Entry → CommandGroup → List Entry → List CommandGroup
  | _prev, cur, [] => [a.finalizeGroup (ordOf cur.commands) cur]
  | prev, cur, entry :: rest =>
    let tool := extractTool entry.command
    let intent := a.inferIntent entry.command
    let prevTool := extractTool prev.command
    let startNewGroup :=
      !areRelatedTools prevTool tool || a.hasTimeGap prev entry ||
        (cur.intent != "" && cur.intent != intent)
    if startNewGroup then
      a.finalizeGroup (ordOf cur.commands) cur ::
        analyzeLoop a ordOf entry
          { title := "", description := "", commands := [entry], intent := intent } rest
    else
      analyzeLoop a ordOf entry
        { cur with
          commands := cur.commands ++ [entry],
          intent := if intent != "" && cur.intent == "" then intent else cur.intent } rest

/-- Embedding of `IntentAnalyzer.Analyze` from intent.go. -/
def IntentAnalyzer.Analyze (a : IntentAnalyzer) (ordOf : List Entry → List String) :
    List Entry → List CommandGroup
  | [] => []
  | entry :: rest =>
    analyzeLoop a ordOf entry
      { title := "", description := "", commands := [entry],
        intent := a.inferIntent entry.command } rest

/-- Classical unit-cost Levenshtein distance: Mathlib's `levenshtein` with the
default cost structure. -/
def levSpec (a b : List Char) : Nat :=
  levenshtein Levenshtein.defaultCost a b


/-- Tool `t` is strictly the most common tool of the group's commands. -/
abbrev StrictMaxTool (commands : List Entry) (t : String) : Prop :=
  t ∈ toolKeys commands ∧
    ∀ u ∈ toolKeys commands, u ≠ t → toolCount commands u < toolCount commands t


/-- A sample mask pattern used to exercise the sanitizer theorems. -/
def toyPattern : Pattern :=
  { name := "toy", isMatch := fun c => c == "secret",
    replace := fun _ => "clean", fullRemove := false }

/-- A sample full-removal pattern used to exercise the sanitizer theorems. -/
def toyRemovePattern : Pattern :=
  { name := "private-key", isMatch := fun c => c == "key material",
    replace := fun c => c, fullRemove := true }

/-- A sample sanitizer in non-strict mode. -/
def toySanitizer : Sanitizer :=
  { patterns := [toyPattern, toyRemovePattern], allowlist := [], strictMode := false }


theorem levSpec_nil_left (b : List Char) : levSpec [] b = b.length := by
  induction b with
  | nil => simp [levSpec]
  | cons y ys ih => simp only [levSpec] at ih ⊢; simp [ih]; omega

theorem levSpec_nil_right (a : List Char) : levSpec a [] = a.length := by
  induction a with
  | nil => simp [levSpec]
  | cons x xs ih => simp only [levSpec] at ih ⊢; simp [ih]; omega

theorem levSpec_cons_cons (x y : Char) (a b : List Char) :
    levSpec (x :: a) (y :: b) =
      min (levSpec a (y :: b) + 1)
        (min (levSpec (x :: a) b + 1) (levSpec a b + if x = y then 0 else 1)) := by
  simp only [levSpec, levenshtein_cons_cons, Levenshtein.defaultCost_delete,
    Levenshtein.defaultCost_insert, Levenshtein.defaultCost_substitute]
  omega

set_option maxHeartbeats 800000 in
theorem levSpec_append (x y : Char) (a : List Char) :
    ∀ b : List Char,
      levSpec (a ++ [x]) (b ++ [y]) =
        min (levSpec a (b ++ [y]) + 1)
          (min (levSpec (a ++ [x]) b + 1) (levSpec a b + if x = y then 0 else 1)) := by
  induction a with
  | nil =>
    intro b
    induction b with
    | nil =>
      simp only [List.nil_append]
      rw [levSpec_cons_cons]
    | cons w b' ihb =>
      simp only [List.nil_append, List.cons_append] at ihb ⊢
      rw [levSpec_cons_cons x w (([] : List Char)) (b' ++ [y]), ihb,
        levSpec_cons_cons x w ([] : List Char) b']
      simp only [levSpec_nil_left, List.length_append, List.length_cons, List.length_nil]
      omega
  | cons p a' iha =>
    intro b
    induction b with
    | nil =>
      simp only [List.cons_append, List.nil_append] at iha ⊢
      have h1 := iha []
      simp only [List.nil_append] at h1
      rw [levSpec_cons_cons p y (a' ++ [x]) ([] : List Char), h1,
        levSpec_cons_cons p y a' ([] : List Char)]
      simp only [List.nil_append, levSpec_nil_right, List.length_append, List.length_cons,
        List.length_nil]
      omega
    | cons w b' ihb =>
      simp only [List.cons_append] at iha ihb ⊢
      have h1 := iha (w :: b')
      simp only [List.cons_append] at h1
      rw [levSpec_cons_cons p w (a' ++ [x]) (b' ++ [y]), h1, ihb, iha b',
        levSpec_cons_cons p w a' (b' ++ [y]), levSpec_cons_cons p w (a' ++ [x]) b',
        levSpec_cons_cons p w a' b']
      simp only [← Nat.add_min_add_right]
      refine le_antisymm ?_ ?_ <;> simp only [le_min_iff, min_le_iff] <;> omega

theorem levAux_eq_levSpec (a b : List Char) :
    ∀ i j, i ≤ a.length → j ≤ b.length →
      levAux a b i j = levSpec (a.take i) (b.take j) := by
  intro i
  induction i with
  | zero =>
    intro j _ hj
    simp only [levAux, levSpec_nil_left, List.take_zero, List.length_take]
    omega
  | succ i ih =>
    intro j hi
    induction j with
    | zero =>
      intro _
      show i + 1 = levSpec (a.take (i + 1)) (b.take 0)
      simp only [List.take_zero, levSpec_nil_right, List.length_take]
      omega
    | succ j ihj =>
      intro hj
      have hlt_i : i < a.length := hi
      have hlt_j : j < b.length := hj
      have hrec : levAux a b (i + 1) (j + 1) =
          min (levAux a b i (j + 1) + 1)
            (min (levAux a b (i + 1) j + 1)
              (levAux a b i j + if a[i]? = b[j]? then 0 else 1)) := rfl
      rw [hrec, ih (j + 1) (le_of_lt hlt_i) hj, ih j (le_of_lt hlt_i) (le_of_lt hlt_j),
        ihj (le_of_lt hlt_j)]
      have hta : a.take (i + 1) = a.take i ++ [a[i]] := by
        rw [List.take_succ, List.getElem?_eq_getElem hlt_i]
        rfl
      have htb : b.take (j + 1) = b.take j ++ [b[j]] := by
        rw [List.take_succ, List.getElem?_eq_getElem hlt_j]
        rfl
      rw [hta, htb, levSpec_append]
      simp [List.getElem?_eq_getElem, hlt_i, hlt_j]

theorem levenshteinDistance_eq_levSpec (a b : String) :
    levenshteinDistance a b = levSpec a.data b.data := by
  unfold levenshteinDistance
  by_cases ha : a.length = 0
  · have hd : a.data = [] := List.length_eq_zero.mp ha
    rw [if_pos ha, hd, levSpec_nil_left]
    rfl
  · by_cases hb : b.length = 0
    · have hd : b.data = [] := List.length_eq_zero.mp hb
      rw [if_neg ha, if_pos hb, hd, levSpec_nil_right]
      rfl
    · rw [if_neg ha, if_neg hb]
      have h := levAux_eq_levSpec a.data b.data a.data.length b.data.length le_rfl le_rfl
      rw [List.take_length, List.take_length] at h
      exact h

theorem ite_neg_eq_natAbs (x : Int) : (if x < 0 then -x else x) = (x.natAbs : Int) := by
  by_cases h : x < 0
  · rw [if_pos h]
    omega
  · rw [if_neg h]
    omega

theorem ite_lt_two_eq_max (t : Nat) : (if t < 2 then 2 else t) = max 2 t := by
  by_cases h : t < 2
  · rw [if_pos h]
    omega
  · rw [if_neg h]
    omega

theorem ite_gt_five_eq_min (t : Nat) : (if t > 5 then 5 else t) = min 5 t := by
  by_cases h : t > 5
  · rw [if_pos h]
    omega
  · rw [if_neg h]
    omega

theorem ite_gt_eq_max (la lb : Nat) : (if lb > la then lb else la) = max la lb := by
  by_cases h : lb > la
  · rw [if_pos h]
    omega
  · rw [if_neg h]
    omega

theorem isTypoCorrection_iff (d : Dedup) (a b : String) :
    d.isTypoCorrection a b = true ↔
      ((((trimSpace a).length : Int) - ((trimSpace b).length : Int)).natAbs ≤ 5 ∧
        0 < levSpec (trimSpace a).data (trimSpace b).data ∧
        levSpec (trimSpace a).data (trimSpace b).data ≤
          min 5 (max 2 (max (trimSpace a).length (trimSpace b).length / 10))) := by
  simp only [Dedup.isTypoCorrection, levenshteinDistance_eq_levSpec,
    ite_neg_eq_natAbs, ite_lt_two_eq_max, ite_gt_five_eq_min, ite_gt_eq_max]
  split
  · next h =>
    simp only [Bool.false_eq_true, false_iff]
    intro hc
    omega
  · next h =>
    rw [decide_eq_true_eq]
    omega

theorem hasSignificantGap_iff (d : Dedup) (a b : Entry) :
    d.hasSignificantGap a b = true ↔
      (a.hasTime = true ∧ b.hasTime = true ∧ b.timestamp - a.timestamp > d.timeGap) := by
  cases ha : a.hasTime <;> cases hb : b.hasTime <;>
    simp [Dedup.hasSignificantGap, ha, hb]

theorem dedupLoop_dup_drop (d : Dedup) (res : List Entry) (prev entry : Entry)
    (rest : List Entry) (h1 : res.getLast? = some prev)
    (h2 : ¬ trimSpace entry.command = "")
    (h3 : d.isExactDuplicate prev entry = true)
    (h4 : d.hasSignificantGap prev entry = false) :
    dedupLoop d res (entry :: rest) = dedupLoop d res rest := by
  simp only [dedupLoop, h1, h2, h3, h4]
  simp

theorem dedupLoop_dup_keep (d : Dedup) (res : List Entry) (prev entry : Entry)
    (rest : List Entry) (h1 : res.getLast? = some prev)
    (h2 : ¬ trimSpace entry.command = "")
    (h3 : d.isExactDuplicate prev entry = true)
    (h4 : d.hasSignificantGap prev entry = true) :
    dedupLoop d res (entry :: rest) = dedupLoop d (res ++ [entry]) rest := by
  simp only [dedupLoop, h1, h2, h3, h4]
  simp

theorem dedupLoop_typo_replace (d : Dedup) (res : List Entry) (prev entry : Entry)
    (rest : List Entry) (h1 : res.getLast? = some prev)
    (h2 : ¬ trimSpace entry.command = "")
    (h3 : d.isExactDuplicate prev entry = false)
    (h4 : d.isTypoCorrection prev.command entry.command = true) :
    dedupLoop d res (entry :: rest) = dedupLoop d (res.dropLast ++ [entry]) rest := by
  simp only [dedupLoop, h1, h2, h3, h4]
  simp

theorem dedupLoop_sublist (d : Dedup) :
    ∀ (rest result pre : List Entry), result.Sublist pre →
      (dedupLoop d result rest).Sublist (pre ++ rest) := by
  intro rest
  induction rest with
  | nil =>
    intro result pre h
    simpa [dedupLoop] using h
  | cons e rest ih =>
    intro result pre h
    have hres : result.Sublist (pre ++ [e]) := h.trans (List.sublist_append_left pre [e])
    have happ : (result ++ [e]).Sublist (pre ++ [e]) := h.append (List.Sublist.refl [e])
    have hdrop : (result.dropLast ++ [e]).Sublist (pre ++ [e]) :=
      ((List.dropLast_sublist result).trans h).append (List.Sublist.refl [e])
    have hrw : pre ++ e :: rest = (pre ++ [e]) ++ rest := by simp
    rw [hrw]
    simp only [dedupLoop]
    repeat' split
    all_goals first
      | exact ih _ _ hres
      | exact ih _ _ happ
      | exact ih _ _ hdrop

/-- C5 (counterexample): for three `ls` entries at t0, t0+2s, t0+4s with a
30-second gap, `Dedup.Process` keeps the first occurrence (t0), not the last
(t0+4s) as the claim states: the result equals the singleton of the first
entry and differs from the singleton of the last entry. -/
theorem dedup_quick_dup_keeps_first :
    ({ timeGap := 30 } : Dedup).Process
        [⟨1, 0, "ls", true⟩, ⟨2, 2, "ls", true⟩, ⟨3, 4, "ls", true⟩] =
      [⟨1, 0, "ls", true⟩] ∧
    ({ timeGap := 30 } : Dedup).Process
        [⟨1, 0, "ls", true⟩, ⟨2, 2, "ls", true⟩, ⟨3, 4, "ls", true⟩] ≠
      [⟨3, 4, "ls", true⟩] :=
  ⟨by decide, by decide⟩

/-- C5 (amended): three `ls` entries at t0, t0+2s and t0+4s with gap 30s
collapse to exactly one entry, the first occurrence (the one at t0). -/
theorem dedup_quick_dup_collapses_to_first :
    ({ timeGap := 30 } : Dedup).Process
        [⟨1, 0, "ls", true⟩, ⟨2, 2, "ls", true⟩, ⟨3, 4, "ls", true⟩] =
      [⟨1, 0, "ls", true⟩] := by
  decide

/-- C7: during `Dedup.Process`, an entry whose trimmed command equals the
trimmed command of the last result entry is dropped, unless both entries have
timestamps and the elapsed time exceeds `timeGap`, in which case it is kept;
an entry lacking a timestamp never produces a gap signal; and three
`kubectl get pods` entries 45 seconds apart with gap 30s are all kept. -/
theorem dedup_exact_duplicate_rule :
    (∀ (d : Dedup) (res : List Entry) (prev entry : Entry) (rest : List Entry),
        res.getLast? = some prev → ¬ trimSpace entry.command = "" →
        trimSpace prev.command = trimSpace entry.command →
        ¬ (prev.hasTime = true ∧ entry.hasTime = true ∧
            entry.timestamp - prev.timestamp > d.timeGap) →
        dedupLoop d res (entry :: rest) = dedupLoop d res rest) ∧
    (∀ (d : Dedup) (res : List Entry) (prev entry : Entry) (rest : List Entry),
        res.getLast? = some prev → ¬ trimSpace entry.command = "" →
        trimSpace prev.command = trimSpace entry.command →
        prev.hasTime = true → entry.hasTime = true →
        entry.timestamp - prev.timestamp > d.timeGap →
        dedupLoop d res (entry :: rest) = dedupLoop d (res ++ [entry]) rest) ∧
    (∀ (d : Dedup) (a b : Entry), a.hasTime = false ∨ b.hasTime = false →
        d.hasSignificantGap a b = false) ∧
    ({ timeGap := 30 } : Dedup).Process
        [⟨1, 0, "kubectl get pods", true⟩, ⟨2, 45, "kubectl get pods", true⟩,
          ⟨3, 90, "kubectl get pods", true⟩] =
      [⟨1, 0, "kubectl get pods", true⟩, ⟨2, 45, "kubectl get pods", true⟩,
        ⟨3, 90, "kubectl get pods", true⟩] := by
  refine ⟨?_, ?_, ?_, by decide⟩
  · intro d res prev entry rest h1 h2 heq hng
    have h4 : d.hasSignificantGap prev entry = false := by
      cases hgap : d.hasSignificantGap prev entry
      · rfl
      · exact absurd ((hasSignificantGap_iff d prev entry).mp hgap) hng
    exact dedupLoop_dup_drop d res prev entry rest h1 h2
      (by simp [Dedup.isExactDuplicate, heq]) h4
  · intro d res prev entry rest h1 h2 heq ha hb hg
    exact dedupLoop_dup_keep d res prev entry rest h1 h2
      (by simp [Dedup.isExactDuplicate, heq])
      ((hasSignificantGap_iff d prev entry).mpr ⟨ha, hb, hg⟩)
  · intro d a b h
    rcases h with h | h <;> simp [Dedup.hasSignificantGap, h]

/-- Witness for C7: a quick duplicate (2s apart, gap 30s) is dropped. -/
theorem dedup_exact_duplicate_rule_witness :
    dedupLoop { timeGap := 30 } [⟨1, 0, "ls", true⟩] [⟨2, 2, "ls", true⟩] =
      dedupLoop { timeGap := 30 } [⟨1, 0, "ls", true⟩] [] :=
  dedup_exact_duplicate_rule.1 { timeGap := 30 } [⟨1, 0, "ls", true⟩]
    ⟨1, 0, "ls", true⟩ ⟨2, 2, "ls", true⟩ [] (by decide) (by decide) (by decide) (by decide)

/-- C6: `isTypoCorrection` over trimmed texts holds exactly when
`|len a - len b| <= 5` and `0 < d <= clamp(max(len a, len b) / 10, 2, 5)`,
where `d` is the classical unit-cost Levenshtein distance (`levSpec`); and a
judged typo correction replaces the last result entry instead of being
appended. -/
theorem dedup_typo_correction_rule :
    (∀ (d : Dedup) (a b : String),
        d.isTypoCorrection a b = true ↔
          ((((trimSpace a).length : Int) - ((trimSpace b).length : Int)).natAbs ≤ 5 ∧
            0 < levSpec (trimSpace a).data (trimSpace b).data ∧
            levSpec (trimSpace a).data (trimSpace b).data ≤
              min 5 (max 2 (max (trimSpace a).length (trimSpace b).length / 10)))) ∧
    (∀ (d : Dedup) (res : List Entry) (prev entry : Entry) (rest : List Entry),
        res.getLast? = some prev → ¬ trimSpace entry.command = "" →
        d.isExactDuplicate prev entry = false →
        d.isTypoCorrection prev.command entry.command = true →
        dedupLoop d res (entry :: rest) = dedupLoop d (res.dropLast ++ [entry]) rest) :=
  ⟨isTypoCorrection_iff, dedupLoop_typo_replace⟩

/-- Witness for C6: a typo correction replaces the last result entry. -/
theorem dedup_typo_correction_rule_witness :
    dedupLoop { timeGap := 30 } [⟨1, 0, "ab", false⟩] [⟨2, 0, "ba", false⟩] =
      dedupLoop { timeGap := 30 }
        (([⟨1, 0, "ab", false⟩] : List Entry).dropLast ++ [⟨2, 0, "ba", false⟩]) [] :=
  dedup_typo_correction_rule.2 { timeGap := 30 } [⟨1, 0, "ab", false⟩]
    ⟨1, 0, "ab", false⟩ ⟨2, 0, "ba", false⟩ [] (by decide) (by decide) (by decide) (by decide)

/-- C8: the output of `Dedup.Process` is a sublist of the input — every
output entry is an input entry, relative order is preserved, and the output
count never exceeds the input count. -/
theorem dedup_Process_sublist (d : Dedup) (entries : List Entry) :
    (d.Process entries).Sublist entries ∧
      (d.Process entries).length ≤ entries.length := by
  have h : (d.Process entries).Sublist entries := by
    unfold Dedup.Process
    split
    · exact List.Sublist.refl _
    · simpa using dedupLoop_sublist d entries [] [] (List.Sublist.refl [])
  exact ⟨h, h.length_le⟩

theorem sanitizeEntry_snd (s : Sanitizer) (e : Entry) :
    (s.sanitizeEntry e).2 =
      (sanitizeLoop s.strictMode e.command e.number s.patterns e.command []).2 := by
  unfold Sanitizer.sanitizeEntry
  rcases h : sanitizeLoop s.strictMode e.command e.number s.patterns e.command [] with ⟨c, reds⟩
  cases c <;> simp

theorem sanitizeEntry_fst_none (s : Sanitizer) (e : Entry) :
    (s.sanitizeEntry e).1 = none ↔
      (sanitizeLoop s.strictMode e.command e.number s.patterns e.command []).1 = none := by
  unfold Sanitizer.sanitizeEntry
  rcases h : sanitizeLoop s.strictMode e.command e.number s.patterns e.command [] with ⟨c, reds⟩
  cases c <;> simp

theorem sanitizeLoop_mem_original (strict : Bool) (orig : String) (num : Int) :
    ∀ (ps : List Pattern) (command : String) (acc : List Redaction) (r : Redaction),
      r ∈ (sanitizeLoop strict orig num ps command acc).2 →
      r ∈ acc ∨ (r.original = (if strict then orig else "") ∧
        r.entryNumber = num ∧ r.patternName ∈ ps.map Pattern.name) := by
  intro ps
  induction ps with
  | nil =>
    intro command acc r h
    exact Or.inl (by simpa [sanitizeLoop] using h)
  | cons p ps ih =>
    intro command acc r h
    simp only [sanitizeLoop] at h
    by_cases hm : p.isMatch command = false
    · rw [if_pos hm] at h
      rcases ih command acc r h with h' | h'
      · exact Or.inl h'
      · exact Or.inr ⟨h'.1, h'.2.1, by simp [h'.2.2]⟩
    · rw [if_neg hm] at h
      by_cases hf : p.fullRemove
      · rw [if_pos hf] at h
        simp only [List.mem_singleton] at h
        subst h
        exact Or.inr ⟨rfl, rfl, by simp⟩
      · rw [if_neg hf] at h
        by_cases hnc : p.replace command ≠ command
        · rw [if_pos hnc] at h
          rcases ih _ _ r h with h' | h'
          · rcases List.mem_append.mp h' with h'' | h''
            · exact Or.inl h''
            · simp only [List.mem_singleton] at h''
              subst h''
              exact Or.inr ⟨rfl, rfl, by simp⟩
          · exact Or.inr ⟨h'.1, h'.2.1, by simp [h'.2.2]⟩
        · rw [if_neg hnc] at h
          rcases ih _ _ r h with h' | h'
          · exact Or.inl h'
          · exact Or.inr ⟨h'.1, h'.2.1, by simp [h'.2.2]⟩

theorem sanitizeLoop_none_spec (strict : Bool) (orig : String) (num : Int) :
    ∀ (ps : List Pattern) (command : String) (acc : List Redaction),
      (sanitizeLoop strict orig num ps command acc).1 = none →
      ∃ p, p ∈ ps ∧ p.fullRemove = true ∧
        (sanitizeLoop strict orig num ps command acc).2 =
          [{ entryNumber := num, patternName := p.name,
             original := if strict then orig else "" }] := by
  intro ps
  induction ps with
  | nil =>
    intro c acc h
    simp [sanitizeLoop] at h
  | cons p ps ih =>
    intro c acc h
    simp only [sanitizeLoop] at h ⊢
    by_cases hm : p.isMatch c = false
    · rw [if_pos hm] at h ⊢
      obtain ⟨q, hq, hfr, heq⟩ := ih _ _ h
      exact ⟨q, by simp [hq], hfr, heq⟩
    · rw [if_neg hm] at h ⊢
      by_cases hf : p.fullRemove
      · rw [if_pos hf] at h ⊢
        exact ⟨p, by simp, hf, rfl⟩
      · rw [if_neg hf] at h ⊢
        by_cases hnc : p.replace c ≠ c
        · rw [if_pos hnc] at h ⊢
          obtain ⟨q, hq, hfr, heq⟩ := ih _ _ h
          exact ⟨q, by simp [hq], hfr, heq⟩
        · rw [if_neg hnc] at h ⊢
          obtain ⟨q, hq, hfr, heq⟩ := ih _ _ h
          exact ⟨q, by simp [hq], hfr, heq⟩

theorem sanitizeProcess_fst (s : Sanitizer) :
    ∀ entries : List Entry,
      (s.Process entries).1 = entries.filterMap (fun e => (s.sanitizeEntry e).1) := by
  intro entries
  induction entries with
  | nil => simp [Sanitizer.Process]
  | cons e rest ih =>
    simp only [Sanitizer.Process, List.filterMap_cons]
    rcases h : (s.sanitizeEntry e).1 with _ | x <;> simp [h, ih]

theorem sanitizeProcess_snd (s : Sanitizer) :
    ∀ entries : List Entry,
      (s.Process entries).2 = (entries.map (fun e => (s.sanitizeEntry e).2)).flatten := by
  intro entries
  induction entries with
  | nil => simp [Sanitizer.Process]
  | cons e rest ih => simp [Sanitizer.Process, ih]

/-- C1: in non-strict mode every redaction emitted by `Sanitizer.Process`
has an empty `original` field and carries only a pattern name drawn from the
fixed pattern table and the sequence number of one of the input entries, so
no original plaintext is retained in any redaction. -/
theorem sanitizer_nonstrict_no_plaintext (s : Sanitizer) (entries : List Entry)
    (r : Redaction) (hs : s.strictMode = false) (hr : r ∈ (s.Process entries).2) :
    r.original = "" ∧ r.entryNumber ∈ entries.map Entry.number ∧
      r.patternName ∈ s.patterns.map Pattern.name := by
  rw [sanitizeProcess_snd] at hr
  obtain ⟨l, hl, hrl⟩ := List.mem_flatten.mp hr
  obtain ⟨e, he, rfl⟩ := List.mem_map.mp hl
  rw [sanitizeEntry_snd] at hrl
  rcases sanitizeLoop_mem_original s.strictMode e.command e.number s.patterns
      e.command [] r hrl with h | h
  · simp at h
  · refine ⟨by simpa [hs] using h.1, ?_, h.2.2⟩
    exact List.mem_map.mpr ⟨e, he, h.2.1.symm⟩

/-- Witness for C1: a concrete non-strict sanitizer run. -/
theorem sanitizer_nonstrict_no_plaintext_witness :
    (⟨1, "toy", ""⟩ : Redaction).original = "" ∧
      (⟨1, "toy", ""⟩ : Redaction).entryNumber ∈
        ([⟨1, 0, "secret", false⟩] : List Entry).map Entry.number ∧
      (⟨1, "toy", ""⟩ : Redaction).patternName ∈ toySanitizer.patterns.map Pattern.name :=
  sanitizer_nonstrict_no_plaintext toySanitizer [⟨1, 0, "secret", false⟩] ⟨1, "toy", ""⟩
    rfl (by decide)

/-- C2: when the pattern loop reaches a matching full-remove pattern, the
entry is dropped (`none`) with exactly one redaction whose `original` captures
the original command text exactly when strict mode is on, independently of all
later patterns; a dropped entry always yields exactly one such redaction from
some full-remove pattern of the table; and `Sanitizer.Process` omits dropped
entries from its output. -/
theorem sanitizer_full_remove_rule :
    (∀ (strict : Bool) (orig : String) (num : Int) (p : Pattern) (rest : List Pattern)
        (command : String) (acc : List Redaction),
        p.fullRemove = true → p.isMatch command = true →
        sanitizeLoop strict orig num (p :: rest) command acc =
          (none, [{ entryNumber := num, patternName := p.name,
                    original := if strict then orig else "" }])) ∧
    (∀ (s : Sanitizer) (e : Entry), (s.sanitizeEntry e).1 = none →
        ∃ p, p ∈ s.patterns ∧ p.fullRemove = true ∧
          (s.sanitizeEntry e).2 =
            [{ entryNumber := e.number, patternName := p.name,
               original := if s.strictMode then e.command else "" }]) ∧
    (∀ (s : Sanitizer) (entries : List Entry),
        (s.Process entries).1 = entries.filterMap (fun e => (s.sanitizeEntry e).1)) := by
  refine ⟨?_, ?_, fun s => sanitizeProcess_fst s⟩
  · intro strict orig num p rest command acc hf hm
    simp [sanitizeLoop, hm, hf]
  · intro s e h
    rw [sanitizeEntry_fst_none] at h
    obtain ⟨p, hp, hfr, heq⟩ :=
      sanitizeLoop_none_spec s.strictMode e.command e.number s.patterns e.command [] h
    exact ⟨p, hp, hfr, by rw [sanitizeEntry_snd, heq]⟩

/-- Witness for C2: a private-key-style full-remove pattern fires. -/
theorem sanitizer_full_remove_rule_witness :
    sanitizeLoop false "key material" 7 [toyRemovePattern] "key material" [] =
      (none, [{ entryNumber := 7, patternName := "private-key", original := "" }]) :=
  sanitizer_full_remove_rule.1 false "key material" 7 toyRemovePattern [] "key material" []
    rfl (by decide)

/-- C10: an entry that `Sanitizer.Process` does not drop keeps its `number`,
`timestamp` and `hasTime` fields unchanged — only `command` may differ — and
the process output is exactly the per-entry sanitization of the input. -/
theorem sanitize_entry_frame :
    (∀ (s : Sanitizer) (e e' : Entry), (s.sanitizeEntry e).1 = some e' →
        e'.number = e.number ∧ e'.timestamp = e.timestamp ∧ e'.hasTime = e.hasTime) ∧
    (∀ (s : Sanitizer) (entries : List Entry),
        (s.Process entries).1 = entries.filterMap (fun e => (s.sanitizeEntry e).1)) := by
  refine ⟨?_, fun s => sanitizeProcess_fst s⟩
  intro s e e' h
  unfold Sanitizer.sanitizeEntry at h
  rcases hl : sanitizeLoop s.strictMode e.command e.number s.patterns e.command []
    with ⟨c, reds⟩
  rw [hl] at h
  cases c with
  | none => simp at h
  | some cc =>
    simp only [Option.some.injEq] at h
    rw [← h]
    exact ⟨rfl, rfl, rfl⟩

/-- Witness for C10: frame fields survive a concrete sanitization. -/
theorem sanitize_entry_frame_witness :
    (⟨1, 5, "clean", true⟩ : Entry).number = (⟨1, 5, "secret", true⟩ : Entry).number ∧
      (⟨1, 5, "clean", true⟩ : Entry).timestamp = (⟨1, 5, "secret", true⟩ : Entry).timestamp ∧
      (⟨1, 5, "clean", true⟩ : Entry).hasTime = (⟨1, 5, "secret", true⟩ : Entry).hasTime :=
  sanitize_entry_frame.1 toySanitizer ⟨1, 5, "secret", true⟩ ⟨1, 5, "clean", true⟩ (by decide)

theorem finalizeGroup_commands (a : IntentAnalyzer) (ord : List String) (g : CommandGroup) :
    (a.finalizeGroup ord g).commands = g.commands := rfl

theorem analyzeLoop_commands (a : IntentAnalyzer) (ordOf : List Entry → List String) :
    ∀ (rest : List Entry) (prev : Entry) (cur : CommandGroup),
      ((analyzeLoop a ordOf prev cur rest).map CommandGroup.commands).flatten =
        cur.commands ++ rest := by
  intro rest
  induction rest with
  | nil =>
    intro prev cur
    simp [analyzeLoop, finalizeGroup_commands]
  | cons e rest ih =>
    intro prev cur
    simp only [analyzeLoop]
    split
    · simp [finalizeGroup_commands, ih]
    · simp [ih]

/-- C4: concatenating the command lists of all groups returned by
`IntentAnalyzer.Analyze`, in group order, yields exactly the input entry
sequence, and the empty input yields the empty group sequence. -/
theorem analyze_partition (a : IntentAnalyzer) (ordOf : List Entry → List String) :
    (∀ entries : List Entry,
        ((a.Analyze ordOf entries).map CommandGroup.commands).flatten = entries) ∧
      a.Analyze ordOf [] = [] := by
  constructor
  · intro entries
    cases entries with
    | nil => simp [IntentAnalyzer.Analyze]
    | cons e rest => simpa using analyzeLoop_commands a ordOf rest e _
  · rfl

theorem pickPrimary_stay (counts : String → Nat) (t : String) :
    ∀ order : List String, (∀ u ∈ order, ¬ counts u > counts t) →
      order.foldl (fun acc tool => if counts tool > acc.2 then (tool, counts tool) else acc)
        (t, counts t) = (t, counts t) := by
  intro order
  induction order with
  | nil => intro _; rfl
  | cons u order ih =>
    intro h
    simp only [List.foldl_cons]
    rw [if_neg (h u (by simp))]
    exact ih fun v hv => h v (by simp [hv])

theorem pickPrimary_reach (counts : String → Nat) (t : String) :
    ∀ (order : List String) (acc : String × Nat),
      acc.2 < counts t → t ∈ order → (∀ u ∈ order, u ≠ t → counts u < counts t) →
      order.foldl (fun acc tool => if counts tool > acc.2 then (tool, counts tool) else acc)
        acc = (t, counts t) := by
  intro order
  induction order with
  | nil =>
    intro acc _ ht _
    simp at ht
  | cons u order ih =>
    intro acc hlt ht hmax
    simp only [List.foldl_cons]
    by_cases hu : u = t
    · subst hu
      rw [if_pos hlt]
      refine pickPrimary_stay counts u order fun v hv => ?_
      by_cases hvt : v = u
      · subst hvt
        omega
      · have := hmax v (by simp [hv]) hvt
        omega
    · have ht' : t ∈ order := by
        rcases List.mem_cons.mp ht with h | h
        · exact absurd h.symm hu
        · exact h
      have hmax' : ∀ v ∈ order, v ≠ t → counts v < counts t :=
        fun v hv hvt => hmax v (by simp [hv]) hvt
      by_cases hc : counts u > acc.2
      · rw [if_pos hc]
        exact ih (u, counts u) (hmax u (by simp) hu) ht' hmax'
      · rw [if_neg hc]
        exact ih acc hlt ht' hmax'

theorem toolCount_pos_of_mem_keys (commands : List Entry) (t : String)
    (h : t ∈ toolKeys commands) : 0 < toolCount commands t := by
  unfold toolKeys at h
  rw [List.mem_dedup, List.mem_filter] at h
  obtain ⟨c, hc, hct⟩ := List.mem_map.mp h.1
  unfold toolCount
  have : c ∈ commands.filter (fun c => extractTool c.command = t) :=
    List.mem_filter.mpr ⟨hc, by simp [hct]⟩
  exact List.length_pos.mpr (List.ne_nil_of_mem this)

theorem generateTitle_strict_max (commands : List Entry) (t : String)
    (o1 o2 : List String) (h1 : isToolOrder commands o1) (h2 : isToolOrder commands o2)
    (hmax : StrictMaxTool commands t) :
    generateTitle commands o1 = generateTitle commands o2 := by
  have key : ∀ o : List String, isToolOrder commands o →
      pickPrimary (toolCount commands) o = (t, toolCount commands t) := by
    intro o ho
    refine pickPrimary_reach (toolCount commands) t o ("", 0)
      (toolCount_pos_of_mem_keys _ _ hmax.1) (ho.mem_iff.mpr hmax.1) ?_
    intro u hu hut
    exact hmax.2 u (ho.mem_iff.mp hu) hut
  unfold generateTitle
  rw [key o1 h1, key o2 h2]

/-- C9 (counterexample): with one `git` and one `docker` command the two
tools are equally frequent, and two legitimate iteration orders of the tool
map produce different titles, so `generateTitle` is not a function of the
command list alone. -/
theorem generateTitle_tie_depends_on_order :
    isToolOrder [⟨1, 0, "git status", false⟩, ⟨2, 0, "docker ps", false⟩] ["git", "docker"] ∧
    isToolOrder [⟨1, 0, "git status", false⟩, ⟨2, 0, "docker ps", false⟩] ["docker", "git"] ∧
    generateTitle [⟨1, 0, "git status", false⟩, ⟨2, 0, "docker ps", false⟩]
        ["git", "docker"] = "Git operations" ∧
    generateTitle [⟨1, 0, "git status", false⟩, ⟨2, 0, "docker ps", false⟩]
        ["docker", "git"] = "Docker operations" :=
  ⟨by decide, by decide, by decide, by decide⟩

/-- C9 (amended): when a group has a non-empty intent matching a workflow
with a non-empty description, finalization uses that workflow's description as
the title; the fallback title is independent of the map iteration order
whenever one tool is strictly the most common, but under ties it depends on
the unspecified iteration order. -/
theorem group_title_determinism :
    (∀ (a : IntentAnalyzer) (ord : List String) (g : CommandGroup) (w : Workflow),
        g.intent ≠ "" → a.workflows.find? (fun w' => w'.name = g.intent) = some w →
        w.description ≠ "" →
        (a.finalizeGroup ord g).title = w.description) ∧
    (∀ (commands : List Entry) (t : String) (o1 o2 : List String),
        isToolOrder commands o1 → isToolOrder commands o2 →
        StrictMaxTool commands t →
        generateTitle commands o1 = generateTitle commands o2) := by
  constructor
  · intro a ord g w hg hw hd
    unfold IntentAnalyzer.finalizeGroup
    simp [hg, hw, hd]
  · exact fun commands t o1 o2 h1 h2 h3 => generateTitle_strict_max commands t o1 o2 h1 h2 h3

/-- Witness for C9 (amended): concrete intent-based and strict-majority
title computations. -/
theorem group_title_determinism_witness :
    (({ workflows := [⟨"git-commit", ["git add", "git commit", "git push"],
          "Commit and push changes"⟩], threshold := 60 } :
        IntentAnalyzer).finalizeGroup []
      { title := "", description := "", commands := [], intent := "git-commit" }).title =
      "Commit and push changes" ∧
    generateTitle [⟨1, 0, "git status", false⟩, ⟨2, 0, "git add .", false⟩,
        ⟨3, 0, "docker ps", false⟩] ["git", "docker"] =
      generateTitle [⟨1, 0, "git status", false⟩, ⟨2, 0, "git add .", false⟩,
        ⟨3, 0, "docker ps", false⟩] ["docker", "git"] :=
  ⟨group_title_determinism.1
      { workflows := [⟨"git-commit", ["git add", "git commit", "git push"],
          "Commit and push changes"⟩], threshold := 60 } []
      { title := "", description := "", commands := [], intent := "git-commit" }
      ⟨"git-commit", ["git add", "git commit", "git push"], "Commit and push changes"⟩
      (by decide) (by decide) (by decide),
    group_title_determinism.2
      [⟨1, 0, "git status", false⟩, ⟨2, 0, "git add .", false⟩, ⟨3, 0, "docker ps", false⟩]
      "git" ["git", "docker"] ["docker", "git"] (by decide) (by decide)
      ⟨by decide, by decide⟩⟩
